import Mathlib

/-!
# Verification of the rsgit `check-pr` verification engine

A shallow embedding of the rsgit sources (`src/check-pr.rs`, `src/git.rs`,
`src/pr.rs`, `src/checks/rust.rs`, `src/checks/mod.rs`, `src/job.rs`,
`src/cargo.rs`) together with proofs and refutations of the testable
properties of its specification.

Modelling conventions:
* Object ids (`git2::Oid`) are natural numbers.
* The content hash of the object store is an explicit function parameter
  `h : Obj → Nat`; the hypotheses that relate ids to hashes (`ConsistentOdb`)
  model the fact that a real git store is content addressed.
* Graph walks that the Rust code performs with `while let` loops are modelled
  with an explicit fuel parameter.  For a well-formed repository (every
  parent id strictly smaller than the id of its child, which any acyclic
  store can be numbered to satisfy) fuel `id + 1` is always sufficient.
* Concurrency (rayon pools, mpsc channels) is modelled by sequential
  evaluation in program order; rayon's `try_for_each` is modelled as a
  sequential short-circuiting fold, which reflects the guarantees the code
  relies on (every item runs when there is no failure; a failure produces an
  error result without any guarantee that the remaining items run).
* External collaborators (cargo subprocesses) are an oracle
  `jobOracle : SC → Bool` deciding whether a concrete job succeeds.
-/

set_option autoImplicit false

/-- A tree entry (`git2::TreeEntry`): a file name and the id of the object it
points at.  Whether the entry is a blob or a subtree is discovered by reading
the object store, as `libgit2`'s tree walk does. -/
structure Entry where
  name : String
  oid : Nat
deriving DecidableEq

/-- The payload of a commit object: parent ids (ordered), the id of its root
tree, an opaque author/committer identity and the commit message. -/
structure CommitV where
  parents : List Nat
  tree : Nat
  author : Nat
  msg : String
deriving DecidableEq

/-- A git object: blob, tree, or commit (`git2::ObjectType`). -/
inductive Obj where
| blob : List Nat → Obj
| tree : List Entry → Obj
| commitO : CommitV → Obj
deriving DecidableEq

def Obj.isCommit : Obj → Bool
| .commitO _ => true
| _ => false

/-- An object database: association list from id to object.  Reads return the
first binding; writes append, so earlier bindings are never shadowed. -/
abbrev Odb := List (Nat × Obj)

/-- `git_odb_read`: look an object up by id. -/
def odbRead : Odb → Nat → Option Obj
| [], _ => none
| (i, o) :: rest, id => if i = id then some o else odbRead rest id

/-- `git_odb_write` into a content-addressed store with hash `h`: the returned
id is the content hash; if an object with that id is already present the
store is unchanged. -/
def odbWrite (h : Obj → Nat) (odb : Odb) (o : Obj) : Odb × Nat :=
  match odbRead odb (h o) with
  | some _ => (odb, h o)
  | none => (odb ++ [(h o, o)], h o)

/-- A repository: its object database and its `refs/notes/check-commit`
notes, keyed by commit id (the note body is a single string). -/
structure Repo where
  odb : Odb
  notes : List (Nat × String)
deriving DecidableEq

/-- `Repository::find_commit`: resolve an id to a commit. -/
def findCommit (repo : Repo) (id : Nat) : Option CommitV :=
  match odbRead repo.odb id with
  | some (.commitO c) => some c
  | _ => none

/-- Well-formed repository: every parent id is strictly smaller than the id of
its child.  Any acyclic commit graph can be numbered this way; it gives the
fuel bounds for the `while let` walks. -/
def WFRepo (repo : Repo) : Prop :=
  ∀ id c, findCommit repo id = some c → ∀ p ∈ c.parents, p < id

/-!
## Commit graph walks (`check-pr.rs` step 1 and step 2)
-/

/-- Step 1 of `real_main`: the first-parent history of `master`.

```text
let mut parent = Ok(master_tip.clone());
while let Ok(parent_commit) = parent {
    parent_commits.insert(parent_commit.id());
    parent = parent_commit.parent(0);
}
```
The walk records the current id, then moves to the first parent; it stops
when there is no first parent or the parent does not resolve. -/
def fpAncestorsAux (repo : Repo) : Nat → Nat → CommitV → List Nat
| 0, _, _ => []
| fuel + 1, id, c =>
  id :: (match c.parents with
    | [] => []
    | p :: _ =>
      match findCommit repo p with
      | none => []
      | some cp => fpAncestorsAux repo fuel p cp)

/-- The `AncestorSet` of the master tip (fuel `masterId + 1` suffices for a
well-formed repository). -/
def fpAncestors (repo : Repo) (masterId : Nat) (mc : CommitV) : List Nat :=
  fpAncestorsAux repo (masterId + 1) masterId mc

/-- Result of the linear PR walk of `real_main` step 2. -/
structure WalkOut where
  /-- `pr_linear_commits` before the final `reverse`: the commits on the
  first-parent chain from the PR tip, child-to-parent order, stopping at the
  first commit already in the ancestor set. -/
  pending : List (Nat × CommitV)
  /-- `has_merges`: some commit on that chain had more than one parent. -/
  hasMerges : Bool
  /-- `needs_rebase`: stays `true` unless the walk stopped exactly at the
  master tip. -/
  needsRebase : Bool
deriving DecidableEq

/-- Step 2 of `real_main`: walk the first-parent chain of the PR tip.

```text
while let Ok(parent_commit) = parent {
    let id = parent_commit.id();
    if parent_commits.contains(&id) {
        if id == master_id { needs_rebase = false; }
        break;
    }
    if parent_commit.parent_count() > 1 { has_merges = true; ... }
    parent = parent_commit.parent(0);
    pr_linear_commits.push(parent_commit);
}
```
-/
def linWalkAux (repo : Repo) (master : List Nat) (masterId : Nat) :
    Nat → Nat → CommitV → WalkOut
| 0, _, _ => ⟨[], false, true⟩
| fuel + 1, id, c =>
  if id ∈ master then
    ⟨[], false, decide (id ≠ masterId)⟩
  else
    let rest : WalkOut :=
      match c.parents with
      | [] => ⟨[], false, true⟩
      | p :: _ =>
        match findCommit repo p with
        | none => ⟨[], false, true⟩
        | some cp => linWalkAux repo master masterId fuel p cp
    ⟨(id, c) :: rest.pending,
     (decide (c.parents.length > 1) || rest.hasMerges),
     rest.needsRebase⟩

/-- The continuation of one linear-walk step: look up the first parent and
keep walking (used to state the unfolding equation of `linWalkAux`). -/
def linWalkRest (repo : Repo) (master : List Nat) (masterId : Nat)
    (fuel : Nat) (c : CommitV) : WalkOut :=
  match c.parents with
  | [] => ⟨[], false, true⟩
  | p :: _ =>
    match findCommit repo p with
    | none => ⟨[], false, true⟩
    | some cp => linWalkAux repo master masterId fuel p cp

/-- The linear PR walk started at the tip, with sufficient fuel. -/
def linWalk (repo : Repo) (master : List Nat) (masterId tipId : Nat)
    (tc : CommitV) : WalkOut :=
  linWalkAux repo master masterId (tipId + 1) tipId tc

/-- The commits reachable from the PR tip without passing through the
ancestor set: the notion of "commit in the PR" used by the specification's
walk contract.  The tip itself is reachable; from a reachable commit every
parent that is not in the ancestor set is reachable. -/
inductive ReachPR (repo : Repo) (master : List Nat) (tip : Nat) : Nat → Prop
| refl : ReachPR repo master tip tip
| step {x p : Nat} {c : CommitV} :
    ReachPR repo master tip x →
    findCommit repo x = some c →
    p ∈ c.parents →
    p ∉ master →
    ReachPR repo master tip p

/-!
## `PullRequest::for_each_commit` (`pr.rs`)

Breadth-first walk over all parents, with a stack of sibling batches and a
seen-set; parents already in the master set are not descended into.  The
model returns the ids in first-visit order (the Rust code assigns them
indices in this order and then iterates a `HashMap`; the only use in
`check-pr` inserts the ids into a set, so order is irrelevant there).
-/

/-- Process one batch of tips: mark unseen tips, collecting (in stack order)
the batches of their parents that are outside the master set.

```text
for tip in tips {
    match pr_map.entry(tip.id()) {
        Entry::Occupied(_) => continue,
        Entry::Vacant(vac) => vac.insert(idx),
    };
    ...
    let mut parent_vec = ...parents not in master_commits...;
    if !parent_vec.is_empty() { stack.push(parent_vec); }
}
```
-/
def processTips (repo : Repo) (master : List Nat) :
    List (Nat × CommitV) → List Nat → List Nat × List (List (Nat × CommitV))
| [], seen => (seen, [])
| (id, c) :: rest, seen =>
  if id ∈ seen then processTips repo master rest seen
  else
    let parentVec := c.parents.filterMap (fun p =>
      if p ∈ master then none
      else (findCommit repo p).map (fun cp => (p, cp)))
    let next := processTips repo master rest (seen ++ [id])
    (next.1, if parentVec.isEmpty then next.2 else next.2 ++ [parentVec])

/-- The stack loop of `for_each_commit`.  Batches pushed while processing a
batch of tips end up on top of the stack (LIFO). -/
def forEachCommitAux (repo : Repo) (master : List Nat) :
    Nat → List (List (Nat × CommitV)) → List Nat → List Nat
| 0, _, seen => seen
| _ + 1, [], seen => seen
| fuel + 1, tips :: stack, seen =>
  let step := processTips repo master tips seen
  forEachCommitAux repo master fuel (step.2.reverse ++ stack) step.1

/-- `PullRequest::for_each_commit`: the ids visited, in first-visit order,
starting from the PR tip (which is visited even when it is in the master
set: membership is only tested for parents). -/
def forEachCommit (repo : Repo) (master : List Nat) (tipId : Nat)
    (tc : CommitV) (fuel : Nat) : List Nat :=
  forEachCommitAux repo master fuel [[(tipId, tc)]] []

/-!
## Isolated repository provisioning (`git.rs`)
-/

/-- Failures of tree provisioning.  `mismatch` models the
`assert_eq!(new_id, entry.id())` panic in `copy_tree` (it carries the source
id and the id the destination store produced); `readErr`/`findErr` model the
error returns, each carrying the offending id; `fuel` is exhaustion of the
walk fuel (cannot happen on a well-formed store with fuel larger than the
tree depth). -/
inductive CopyErr where
| readErr : Nat → CopyErr
| mismatch : Nat → Nat → CopyErr
| findErr : Nat → CopyErr
| fuel : CopyErr
deriving DecidableEq

/-- The pre-order tree walk of `copy_tree`:

```text
tree.walk(git2::TreeWalkMode::PreOrder, |_, entry| {
    let obj = src_odb.read(entry.id()) ...;          // readErr on failure
    let new_id = dst_odb.write(obj.kind(), obj.data()) ...;
    assert_eq!(new_id, entry.id());                   // mismatch on failure
    ...
})
```
The worklist starts with the entries of the root tree; visiting a subtree
entry prepends that subtree's entries (pre-order). -/
def copyWalk (h : Obj → Nat) (src : Odb) :
    Nat → List Entry → Odb → Except CopyErr Odb
| 0, _, _ => .error .fuel
| _ + 1, [], dst => .ok dst
| fuel + 1, e :: rest, dst =>
  match odbRead src e.oid with
  | none => .error (.readErr e.oid)
  | some o =>
    if (odbWrite h dst o).2 = e.oid then
      match o with
      | .tree subEntries => copyWalk h src fuel (subEntries ++ rest) (odbWrite h dst o).1
      | _ => copyWalk h src fuel rest (odbWrite h dst o).1
    else .error (.mismatch e.oid (odbWrite h dst o).2)

/-- `copy_tree`: walk and copy every object reachable from the root tree's
entries, then copy the root tree object itself (with the same
`assert_eq!`). -/
def copy_tree (h : Obj → Nat) (fuel : Nat) (src : Odb) (dst : Odb)
    (rootOid : Nat) (rootEntries : List Entry) : Except CopyErr Odb :=
  match copyWalk h src fuel rootEntries dst with
  | .error e => .error e
  | .ok dst1 =>
    match odbRead src rootOid with
    | none => .error (.readErr rootOid)
    | some o =>
      if (odbWrite h dst1 o).2 = rootOid then .ok (odbWrite h dst1 o).1
      else .error (.mismatch rootOid (odbWrite h dst1 o).2)

/-- The state of a `TempRepo`: its object database, its HEAD (`none` models
an unborn HEAD: `Repository::init` leaves HEAD pointing at a branch that
does not exist, and nothing in `TempRepo` ever creates a commit or moves
HEAD), its checked-out working directory, and its notes. -/
structure TempRepoState where
  odb : Odb
  head : Option Nat
  workdir : List (String × List Nat)
  notes : List (Nat × String)
deriving DecidableEq

/-- Checkout errors. -/
inductive CoErr where
| fuel : CoErr
| badObj : Nat → CoErr
deriving DecidableEq

/-- Materialize the files of a list of tree entries, resolving objects in the
given store: blobs become files (path = accumulated prefix plus entry name),
subtrees recurse with an extended prefix.  This is both the model of
`checkout_tree` (run against the destination store) and the specification's
"the files of that commit's tree" (run against the source store). -/
def flattenEntries (odb : Odb) : Nat → String → List Entry →
    Except CoErr (List (String × List Nat))
| 0, _, _ => .error .fuel
| _ + 1, _, [] => .ok []
| fuel + 1, pfx, e :: rest =>
  match odbRead odb e.oid with
  | some (.blob data) =>
    match flattenEntries odb fuel pfx rest with
    | .error er => .error er
    | .ok r => .ok ((pfx ++ e.name, data) :: r)
  | some (.tree subEntries) =>
    match flattenEntries odb fuel (pfx ++ e.name ++ "/") subEntries with
    | .error er => .error er
    | .ok sub =>
      match flattenEntries odb fuel pfx rest with
      | .error er => .error er
      | .ok r => .ok (sub ++ r)
  | _ => .error (.badObj e.oid)

/-- Provisioning errors: either a copy failure, a checkout failure, or a
lookup failure while resolving the commit and its tree. -/
inductive ProvErr where
| copyE : CopyErr → ProvErr
| coE : CoErr → ProvErr
| commitLookup : Nat → ProvErr
| treeLookup : Nat → ProvErr
deriving DecidableEq

/-- `TempRepo::copy_tree_and_checkout` applied to a fresh repository
(`TempRepo::new` gives an empty store and an unborn HEAD), i.e. the body of
`git::temp_repo`:

1. resolve the commit and its root tree in the source repository;
2. `copy_tree` into the empty destination store;
3. read the tree into an in-memory index and `write_tree_to` the destination
   (the index contains exactly the copied tree, so this re-writes objects
   that are already present and returns the root tree id — modelled as a
   second content-addressed write of the root object);
4. `find_object` the written id, `checkout_tree` it into the working
   directory.

No commit object is created and HEAD is never set. -/
def temp_repo (h : Obj → Nat) (fuel : Nat) (src : Repo) (commitId : Nat) :
    Except ProvErr TempRepoState :=
  match findCommit src commitId with
  | none => .error (.commitLookup commitId)
  | some c =>
    match odbRead src.odb c.tree with
    | some (.tree rootEntries) =>
      match copy_tree h fuel src.odb [] c.tree rootEntries with
      | .error e => .error (.copyE e)
      | .ok dst =>
        -- index.write_tree_to: re-write the root tree object
        match odbRead (odbWrite h dst (.tree rootEntries)).1
            (odbWrite h dst (.tree rootEntries)).2 with
        | some (.tree es) =>
          match flattenEntries (odbWrite h dst (.tree rootEntries)).1
              fuel "" es with
          | .error e => .error (.coE e)
          | .ok files =>
            .ok ⟨(odbWrite h dst (.tree rootEntries)).1, none, files, []⟩
        | _ => .error (.treeLookup (odbWrite h dst (.tree rootEntries)).2)
    | _ => .error (.treeLookup c.tree)

/-- Reachability inside an object store, starting from an object id: `refl`,
and from a tree object every entry's id. -/
inductive ReachE (odb : Odb) : Nat → Nat → Prop
| refl (x : Nat) : ReachE odb x x
| step {x t : Nat} {es : List Entry} {e : Entry} :
    ReachE odb x t →
    odbRead odb t = some (.tree es) →
    e ∈ es →
    ReachE odb x e.oid

/-- A content-addressed store is consistent with hash `h`: every readable
object hashes to the id it is stored under. -/
def ConsistentOdb (h : Obj → Nat) (odb : Odb) : Prop :=
  ∀ id o, odbRead odb id = some o → h o = id

/-- No tree entry of the store resolves to a commit object (no submodule
gitlinks; `git fsck` well-formedness). -/
def NoGitlink (odb : Odb) : Prop :=
  ∀ id es, odbRead odb id = some (.tree es) →
    ∀ e ∈ es, ∀ c, odbRead odb e.oid ≠ some (.commitO c)

/-!
## Rebase reconstruction (`check-pr.rs` step 3)
-/

/-- Result of the cherry-pick replay loop. -/
structure ReplayOut where
  /-- The repository afterwards: the temporary worktree shares the source
  object store, so the commits created by the replay land in it. -/
  repo : Repo
  /-- The worktree's final HEAD. -/
  head : Nat
  /-- The ids inserted into `pr_commit_set` by the replay, in replay order. -/
  added : List Nat
  /-- The number of cherry-picks performed. -/
  picks : Nat

/-- Replay failures: a cherry-pick conflict (fatal, `fail_on_conflict`) or a
failure to look up the worktree's HEAD commit. -/
inductive ReplayErr where
| conflict : Nat → ReplayErr
| headLookup : Nat → ReplayErr
deriving DecidableEq

/-- The cherry-pick collaborator: given the current HEAD id and the original
commit (id and payload), the tree that `index.write_tree()` produces after
the pick, or `none` on a merge conflict. -/
abbrev PickFn := Nat → Nat → CommitV → Option Nat

/-- The cherry-pick loop of `real_main` step 3, one iteration per pending
commit (parent-to-child order):

```text
let current_head = wt_repo.head()...;
wt_repo.cherrypick(commit, ...fail_on_conflict...)?;
let tree_oid = index.write_tree()?;
let message = format!("{}\nCherry-picked from {}\n", commit.message()..., commit.id());
wt_repo.commit(Some("HEAD"), &commit.author(), &commit.committer(), &message, &tree, &[&current_commit])?;
let new_head = wt_repo.head()...;
if new_head == current_head { /* skip */ } else { pr_commit_set.insert(new_head); }
```

`Repository::commit(Some("HEAD"), ..)` writes a commit object whose content
includes `current_head` as its (only) parent and moves HEAD to the new id,
so `new_head` is the content hash of the newly written commit. -/
def replayAux (h : Obj → Nat) (pick : PickFn) :
    Repo → Nat → List (Nat × CommitV) → Except ReplayErr ReplayOut
| repo, head, [] => .ok ⟨repo, head, [], 0⟩
| repo, head, (origId, c) :: rest =>
  match findCommit repo head with
  | none => .error (.headLookup head)
  | some _ =>
    match pick head origId c with
    | none => .error (.conflict origId)
    | some t =>
      let newC : CommitV :=
        ⟨[head], t, c.author, c.msg ++ "\nCherry-picked from " ++ toString origId ++ "\n"⟩
      let repo' : Repo := ⟨(odbWrite h repo.odb (.commitO newC)).1, repo.notes⟩
      let newHead := h (.commitO newC)
      if newHead = head then
        -- "Skipping cherry-pick of {} onto {} (no change)."
        (replayAux h pick repo' newHead rest).map
          (fun r => ⟨r.repo, r.head, r.added, r.picks + 1⟩)
      else
        (replayAux h pick repo' newHead rest).map
          (fun r => ⟨r.repo, r.head, newHead :: r.added, r.picks + 1⟩)

/-!
## The rust check (`checks/rust.rs`)
-/

/-- `RustJob`: the job kinds of a rust check. -/
inductive RustJob where
| build
| test
| examples
| fuzz : Nat → RustJob
deriving DecidableEq

/-- `RustCheck`: the declarative check description.  The serde defaults are
`features = []`, `version = []`, `jobs = [build, test, examples]`,
`only_tip = false`, `working_dir = none`. -/
structure RustCheck where
  features : List String
  version : List String
  jobs : List RustJob
  only_tip : Bool
  working_dir : Option String
deriving DecidableEq

/-- A `SingleCheck`: one concrete cargo invocation (toolchain version, job
kind, and the extension list — a feature combination for build/test, a
single target name for examples/fuzz). -/
structure SC where
  cargo_ver : String
  job : RustJob
  ext : List String
deriving DecidableEq

/-- `SingleCheck::notes_str`: the canonical descriptor of a concrete job,
used for logging and as the cache-marker string. -/
def notes_str (sc : SC) : String :=
  match sc.job with
  | .build =>
    sc.cargo_ver ++ " cargo build \x27--features=" ++
      String.intercalate " " sc.ext ++ "\x27"
  | .test =>
    sc.cargo_ver ++ " cargo test \x27--features=" ++
      String.intercalate " " sc.ext ++ "\x27"
  | .examples =>
    sc.cargo_ver ++ " cargo run \x27--example " ++ sc.ext.headD "" ++ "\x27"
  | .fuzz iters =>
    sc.cargo_ver ++ " cargo hfuzz run " ++ sc.ext.headD "" ++
      " # iters " ++ toString iters

/-- The feature matrix of `RustCheck::execute`:

```text
let mut feature_matrix = vec![vec![]];
if !self.features.is_empty() { feature_matrix.push(self.features.clone()); }
for feat in &self.features { feature_matrix.push(vec![feat.clone()]); }
```
-/
def feature_matrix (features : List String) : List (List String) :=
  [[]] ++ (if features.isEmpty then [] else [features]) ++
    features.map (fun f => [f])

/-- The `[bin]` and `[example]` sections of the project manifest
(`cargo.rs`, `CargoToml`), reduced to the target names, which is all the
expander uses. -/
structure CargoToml where
  bin : List String
  /-- the `example` field of the toml (renamed: `example` is a Lean keyword) -/
  examples : List String
deriving DecidableEq

/-- The concrete jobs of one job kind for one toolchain version: build and
test apply the feature matrix; examples and fuzz iterate over the manifest's
targets. -/
def kind_jobs (ver : String) (check : RustCheck) (manifest : CargoToml) :
    RustJob → List SC
| .build => (feature_matrix check.features).map (fun fs => ⟨ver, .build, fs⟩)
| .test => (feature_matrix check.features).map (fun fs => ⟨ver, .test, fs⟩)
| .examples => manifest.examples.map (fun n => ⟨ver, .examples, [n]⟩)
| .fuzz iters => manifest.bin.map (fun n => ⟨ver, .fuzz iters, [n]⟩)

/-- All concrete jobs of a check for one toolchain version, in program
order: the full expansion of the check matrix for one commit and version. -/
def expanded_jobs (ver : String) (check : RustCheck) (manifest : CargoToml) :
    List SC :=
  check.jobs.flatMap (kind_jobs ver check manifest)

/-- The job-success collaborator: whether the cargo subprocess for a concrete
job exits successfully. -/
abbrev OracleFn := SC → Bool

/-- Trace of running the concrete jobs of one kind (one
`par_iter().try_for_each(..)` call). -/
structure TryOut where
  /-- jobs whose cargo subprocess was invoked (including a failing one) -/
  performed : List SC
  /-- jobs skipped because their descriptor was in the loaded marker set -/
  skipped : List SC
  /-- markers pushed to the pending `new_notes` collection -/
  newNotes : List String
  /-- the first failing job, if any -/
  failed : Option SC
deriving DecidableEq

/-- `SingleCheck::run` over one kind's job list.  `try_for_each` is modelled
sequentially: a job whose descriptor is in the loaded set returns `Ok`
without running; a job that runs and succeeds pushes its descriptor to
`new_notes`; a failure short-circuits the remaining jobs of this kind. -/
def tryJobs (oracle : OracleFn) (existing : List String) : List SC → TryOut
| [] => ⟨[], [], [], none⟩
| sc :: rest =>
  if notes_str sc ∈ existing then
    let r := tryJobs oracle existing rest
    ⟨r.performed, sc :: r.skipped, r.newNotes, r.failed⟩
  else if oracle sc then
    let r := tryJobs oracle existing rest
    ⟨sc :: r.performed, r.skipped, notes_str sc :: r.newNotes, r.failed⟩
  else
    ⟨[sc], [], [], some sc⟩

/-- The body of one version's spawned task: `for job in &jobs { ...
try_for_each(..)?; }` — the `?` aborts the remaining job kinds after the
first failure.  (`pin_deps` and the manifest read are external collaborator
calls modelled as succeeding; the manifest is the `manifest` argument.) -/
def runBody (oracle : OracleFn) (existing : List String) (ver : String)
    (check : RustCheck) (manifest : CargoToml) : List RustJob → TryOut
| [] => ⟨[], [], [], none⟩
| j :: rest =>
  let t := tryJobs oracle existing (kind_jobs ver check manifest j)
  match t.failed with
  | some _ => t
  | none =>
    let r := runBody oracle existing ver check manifest rest
    ⟨t.performed ++ r.performed, t.skipped ++ r.skipped,
     t.newNotes ++ r.newNotes, r.failed⟩

/-- Look up a note by commit id (`find_note`). -/
def lookupNote : List (Nat × String) → Nat → Option String
| [], _ => none
| (i, s) :: rest, id => if i = id then some s else lookupNote rest id

/-- Outcome of `RustCheck::execute` for one commit: the trace of performed
and skipped concrete jobs, the accumulated new markers, and the returned
`Result<Vec<String>>`. -/
structure ExecOut where
  performed : List SC
  skipped : List SC
  newNotes : List String
  result : Except String (List String)

/-- The per-version loop of `execute`: each version gets a fresh inner
temporary repository (`temp_repo(&repo.repo, head)?` — a failure aborts
`execute`), then its body runs on the pool.  Returns the bodies' traces in
version order and the provisioning error, if one occurred. -/
def execVersions (h : Obj → Nat) (fuel : Nat) (oracle : OracleFn)
    (check : RustCheck) (manifest : CargoToml) (st : TempRepoState)
    (head : Nat) (existing : List String) :
    List String → List TryOut × Option String
| [] => ([], none)
| ver :: rest =>
  match temp_repo h fuel ⟨st.odb, st.notes⟩ head with
  | .error _ => ([], some ("creating temporary repo for " ++ toString head))
  | .ok _ =>
    let t := runBody oracle existing ver check manifest check.jobs
    let r := execVersions h fuel oracle check manifest st head existing rest
    (t :: r.1, r.2)

/-- The join loop of `execute`: every handle is joined in order; a success
extends the returned notes when the running result is still `Ok`; a failure
replaces the running result. -/
def joinFold : Except String (List String) → List TryOut →
    Except String (List String)
| acc, [] => acc
| acc, t :: rest =>
  let acc' : Except String (List String) :=
    match t.failed with
    | some sc => .error ("job failed: " ++ notes_str sc)
    | none =>
      match acc with
      | .ok ns => .ok (ns ++ t.newNotes)
      | .error e => .error e
  joinFold acc' rest

/-- `RustCheck::execute`:

```text
let head = repo.repo.head().context("getting HEAD")?.target().unwrap();
let existing_notes = repo.repo.find_note(Some("refs/notes/check-commit"), head)
    .ok()...map(|text| text.split('\n')...).unwrap_or(vec![]);
for ver in versions { let fresh_repo = temp_repo(&repo.repo, head)?; ... spawn ... }
for h in handles { ...join, aggregate... }
```

The HEAD lookup, the marker load (from the temporary repository's own
notes!), the version fan-out and the join loop. -/
def execute (h : Obj → Nat) (fuel : Nat) (oracle : OracleFn)
    (check : RustCheck) (manifest : CargoToml) (st : TempRepoState) :
    ExecOut :=
  match st.head with
  | none => ⟨[], [], [], .error "getting HEAD"⟩
  | some head =>
    let versions := if check.version.isEmpty then ["stable"] else check.version
    let existing :=
      match lookupNote st.notes head with
      | some text => text.splitOn "\n"
      | none => []
    let vres := execVersions h fuel oracle check manifest st head existing versions
    { performed := (vres.1.map TryOut.performed).flatten
      skipped := (vres.1.map TryOut.skipped).flatten
      newNotes := (vres.1.map TryOut.newNotes).flatten
      result :=
        match vres.2 with
        | some e => .error e
        | none => joinFold (.ok []) vres.1 }

/-!
## `real_main` (`check-pr.rs`)
-/

/-- The external collaborators and parameters of a run. -/
structure ExecEnv where
  /-- the content hash of the object stores -/
  h : Obj → Nat
  /-- walk fuel (any value larger than every id involved) -/
  fuel : Nat
  /-- job success collaborator -/
  oracle : OracleFn
  /-- cherry-pick collaborator -/
  pick : PickFn
  /-- project manifest collaborator -/
  manifest : CargoToml

/-- Fatal errors of `real_main` (each aborts the whole run). -/
inductive RunErr where
| masterLookup : Nat → RunErr
| tipLookup : Nat → RunErr
| policyMerges : RunErr
| replayE : ReplayErr → RunErr
| provisionE : Nat → ProvErr → RunErr
deriving DecidableEq

/-- Insert each element of the second list into the first, skipping elements
already present (`HashSet::insert`). -/
def insertAll (xs : List Nat) : List Nat → List Nat
| [] => xs
| y :: ys => insertAll (if y ∈ xs then xs else xs ++ [y]) ys

/-- Step 5 of `real_main`: for every commit of the set and every check,
create a temporary repository (a failure aborts the run) and execute the
check in it. -/
def runTasks (env : ExecEnv) (repo : Repo) :
    List (Nat × RustCheck) → Except RunErr (List ExecOut)
| [] => .ok []
| (id, ck) :: rest =>
  match temp_repo env.h env.fuel repo id with
  | .error e => .error (.provisionE id e)
  | .ok st =>
    let out := execute env.h env.fuel env.oracle ck env.manifest st
    (runTasks env repo rest).map (out :: ·)

/-- Step 6 of `real_main`: join every task in order; a success is printed
("Success on {}, notes {:?}"); a failure replaces the running result, so the
final result is the last failure, and the run fails iff any task failed. -/
def collectResults : List ((Nat × RustCheck) × ExecOut) →
    List (Nat × List String) × Except String Unit
| [] => ([], .ok ())
| ((id, _), out) :: rest =>
  let r := collectResults rest
  match out.result with
  | .ok notes => ((id, notes) :: r.1, r.2)
  | .error e =>
    (r.1, match r.2 with
          | .ok _ => .error e
          | .error e2 => .error e2)

/-- Everything `real_main` computed on a non-aborted run. -/
structure RunOut where
  /-- the first-parent `AncestorSet` of master -/
  ancestors : List Nat
  /-- the linear-walk result (pending commits, merge flag, rebase flag) -/
  walk : WalkOut
  /-- ids added to `pr_commit_set` by rebase reconstruction -/
  rebaseAdded : List Nat
  /-- cherry-picks performed -/
  picks : Nat
  /-- the final `pr_commit_set` -/
  commitSet : List Nat
  /-- the scheduled verification tasks, one per commit and check -/
  scheduled : List (Nat × RustCheck)
  /-- one outcome per scheduled task -/
  outcomes : List ExecOut
  /-- the "Success on .." lines -/
  printedSuccess : List (Nat × List String)
  /-- the value `real_main` returns -/
  finalResult : Except String Unit
  /-- the source repository's notes afterwards (no step of the run writes
  notes, so these are the input notes) -/
  notesAfter : List (Nat × String)

/-- `real_main`: open repo (the repo is the argument), resolve master and
tip, build the ancestor set, run the linear walk, apply the merge policy,
conditionally replay, collect the commit set, then schedule and aggregate
the checks. -/
def real_main (env : ExecEnv) (repo : Repo) (masterId tipId : Nat)
    (allowMerges : Bool) (checks : List RustCheck) :
    Except RunErr RunOut :=
  match findCommit repo masterId with
  | none => .error (.masterLookup masterId)
  | some mc =>
    let ancestors := fpAncestors repo masterId mc
    match findCommit repo tipId with
    | none => .error (.tipLookup tipId)
    | some tc =>
      let walk := linWalk repo ancestors masterId tipId tc
      if !allowMerges && walk.hasMerges then
        -- "Refusing to check a PR with merges. Use --allow-merges to allow."
        .error .policyMerges
      else
        let pending := walk.pending.reverse
        let rep :=
          if walk.needsRebase && !walk.hasMerges then
            replayAux env.h env.pick repo masterId pending
          else
            .ok ⟨repo, masterId, [], 0⟩
        match rep with
        | .error e => .error (.replayE e)
        | .ok rep =>
          let bfs := forEachCommit rep.repo ancestors tipId tc env.fuel
          let commitSet := insertAll rep.added bfs
          let tasks := commitSet.flatMap (fun id => checks.map ((id, ·)))
          match runTasks env rep.repo tasks with
          | .error e => .error e
          | .ok outs =>
            let agg := collectResults (tasks.zip outs)
            .ok
              { ancestors := ancestors
                walk := walk
                rebaseAdded := rep.added
                picks := rep.picks
                commitSet := commitSet
                scheduled := tasks
                outcomes := outs
                printedSuccess := agg.1
                finalResult := agg.2
                notesAfter := rep.repo.notes }

/-- All concrete jobs whose cargo subprocess ran during the run. -/
def RunOut.performedJobs (o : RunOut) : List SC :=
  (o.outcomes.map ExecOut.performed).flatten

/-- All concrete jobs skipped via a loaded cache marker during the run. -/
def RunOut.skippedJobs (o : RunOut) : List SC :=
  (o.outcomes.map ExecOut.skipped).flatten

/-!
## Concrete fixtures used by witnesses and counterexamples
-/

/-- A one-commit fixture: a blob at id 1, a tree with one entry at id 2, and
a commit at id 3 whose tree is id 2. -/
def fixC : CommitV := ⟨[], 2, 0, ""⟩

/-- The fixture source repository. -/
def fixSrc : Repo :=
  ⟨[(1, .blob [7]), (2, .tree [⟨"f", 1⟩]), (3, .commitO fixC)], []⟩

/-- A content hash consistent with `fixSrc`. -/
def fixH : Obj → Nat := fun o =>
  if o = .blob [7] then 1
  else if o = .tree [⟨"f", 1⟩] then 2
  else if o = .commitO fixC then 3
  else 0

/-- The temporary repository `temp_repo` produces for commit 3 of `fixSrc`. -/
def fixOut : TempRepoState :=
  ⟨[(1, .blob [7]), (2, .tree [⟨"f", 1⟩])], none, [("f", [7])], []⟩

/-- A minimal rust check: one build job, default version list. -/
def fixCheck : RustCheck := ⟨[], [], [.build], false, none⟩

/-- An empty project manifest. -/
def fixManifest : CargoToml := ⟨[], []⟩

/-- Accessor: the scheduled tasks of a run, or `[]` when the run aborted
before scheduling. -/
def runScheduled : Except RunErr RunOut → List (Nat × RustCheck)
| .error _ => []
| .ok o => o.scheduled

/-- C5 counterexample repository: master history `20 → 10` (first parents),
`20` is itself a merge whose second parent `5` is outside the ancestor set
and is itself a merge of the roots `2` and `3`; every commit uses the empty
tree at id 30.  (The author field differentiates otherwise-identical
commits, as timestamps do in git.) -/
def cexRepo : Repo :=
  ⟨[(2, .commitO ⟨[], 30, 2, ""⟩),
    (3, .commitO ⟨[], 30, 3, ""⟩),
    (5, .commitO ⟨[2, 3], 30, 5, ""⟩),
    (10, .commitO ⟨[], 30, 10, ""⟩),
    (20, .commitO ⟨[10, 5], 30, 20, ""⟩),
    (30, .tree [])], []⟩

/-- A hash for the counterexample stores (only the empty tree is ever
written during provisioning). -/
def cexH : Obj → Nat := fun o => if o = .tree [] then 30 else 0

/-- Environment for the counterexample runs: every job succeeds, every
cherry-pick conflicts (never invoked in these runs). -/
def cexEnv : ExecEnv := ⟨cexH, 50, fun _ => true, fun _ _ _ => none, fixManifest⟩

/-- C5 witness repository: master tip `10`, PR tip `20` a merge of `10` and
`5`, tip not an ancestor of master. -/
def wRepo5 : Repo :=
  ⟨[(5, .commitO ⟨[], 30, 5, ""⟩),
    (10, .commitO ⟨[], 30, 10, ""⟩),
    (20, .commitO ⟨[10, 5], 30, 20, ""⟩),
    (30, .tree [])], []⟩

/-- Accessor: the commits added by a replay, or `[]` on a conflict. -/
def replayAdded : Except ReplayErr ReplayOut → List Nat
| .error _ => []
| .ok r => r.added

/-- Accessor: all concrete jobs performed during a run. -/
def runPerformed : Except RunErr RunOut → List SC
| .error _ => []
| .ok o => o.performedJobs

/-- Accessor: all concrete jobs skipped via a loaded marker during a run. -/
def runSkipped : Except RunErr RunOut → List SC
| .error _ => []
| .ok o => o.skippedJobs

/-- Accessor: the source repository's notes after a completed run. -/
def runNotesAfter : Except RunErr RunOut → Option (List (Nat × String))
| .error _ => none
| .ok o => some o.notesAfter

/-- Accessor: whether the run's final result is a failure. -/
def runFailed : Except RunErr RunOut → Bool
| .error _ => true
| .ok o =>
  match o.finalResult with
  | .ok _ => false
  | .error _ => true

/-- C3 fixture: the commit object the replay creates when cherry-picking
commit 7 (message "fix") onto head 10 with an unchanged tree 30. -/
def c3New : CommitV := ⟨[10], 30, 7, "fix\nCherry-picked from 7\n"⟩

/-- A content hash for the C3 replay: the new commit object hashes to the
fresh id 40. -/
def c3H : Obj → Nat := fun o =>
  if o = .commitO c3New then 40 else if o = .tree [] then 30 else 0

/-- A cherry-pick collaborator whose replay is always a no-op: the index
tree it produces equals the current head's tree (id 30). -/
def c3Pick : PickFn := fun _ _ _ => some 30

/-- C4 fixture: three linear commits 1 ← 2 ← 3 sharing the empty tree 30;
master is 1, the PR tip is 3. -/
def c4Repo : Repo :=
  ⟨[(1, .commitO ⟨[], 30, 1, ""⟩),
    (2, .commitO ⟨[1], 30, 2, ""⟩),
    (3, .commitO ⟨[2], 30, 3, ""⟩),
    (30, .tree [])], []⟩

/-- A check with the only-tip flag set. -/
def c4Check : RustCheck := ⟨[], [], [.build], true, none⟩

/-- Environment for the cache fixture run. -/
def fixEnv : ExecEnv := ⟨fixH, 5, fun _ => true, fun _ _ _ => none, fixManifest⟩

/-- The cache fixture source repository: commit 3 already carries the
persisted marker of the single build job of `fixCheck`. -/
def fixSrcN : Repo :=
  ⟨fixSrc.odb, [(3, "stable cargo build \x27--features=\x27")]⟩

/-- A check with a build job and a test job. -/
def c6Check : RustCheck := ⟨[], [], [.build, .test], false, none⟩

/-- A job collaborator that fails exactly the build jobs. -/
def c6Oracle : OracleFn := fun sc =>
  match sc.job with
  | .build => false
  | _ => true

/-- A temporary-repository state with a live HEAD at commit 3 (the state the
execute body expects to run in). -/
def c6St : TempRepoState := ⟨fixSrc.odb, some 3, [("f", [7])], []⟩

/-!
## Theorems
-/

/-- C7: for every `CheckDescriptor`, the expanded feature matrix always
contains the empty feature set; when the declared feature list is non-empty
it additionally contains the full declared list and each declared feature as
its own singleton, and nothing else; in particular, declared features
`["a","b"]` with a build job expand to exactly 4 Build concrete jobs per
commit per toolchain version. -/
theorem c7_feature_matrix :
    (∀ fs : List String, [] ∈ feature_matrix fs) ∧
    (∀ fs : List String, fs ≠ [] →
      fs ∈ feature_matrix fs ∧
      (∀ x ∈ fs, [x] ∈ feature_matrix fs) ∧
      (∀ c ∈ feature_matrix fs, c = [] ∨ c = fs ∨ ∃ x ∈ fs, c = [x])) ∧
    ((expanded_jobs "stable" ⟨["a", "b"], [], [.build], false, none⟩
        ⟨[], []⟩).filter (fun sc => decide (sc.job = RustJob.build))).length
      = 4 := by
  refine ⟨fun fs => ?_, fun fs hne => ⟨?_, fun x hx => ?_, fun c hc => ?_⟩, ?_⟩
  · simp [feature_matrix]
  · simp [feature_matrix, List.isEmpty_iff, hne]
  · unfold feature_matrix
    refine List.mem_append.mpr (Or.inr ?_)
    exact List.mem_map.mpr ⟨x, hx, rfl⟩
  · simp only [feature_matrix, List.mem_append, List.mem_singleton,
      List.mem_map] at hc
    rcases hc with (hc | hc) | hc
    · exact Or.inl hc
    · rw [if_neg (by simpa [List.isEmpty_iff] using hne)] at hc
      exact Or.inr (Or.inl (List.mem_singleton.mp hc))
    · obtain ⟨x, hx, hcx⟩ := hc
      exact Or.inr (Or.inr ⟨x, hx, hcx.symm⟩)
  · rfl

/-- Witness for `c7_feature_matrix` at the concrete feature list
`["a","b"]`. -/
theorem c7_feature_matrix_witness :
    [] ∈ feature_matrix ["a", "b"] ∧
    ["a", "b"] ∈ feature_matrix ["a", "b"] := by
  refine ⟨c7_feature_matrix.1 _, ?_⟩
  exact (c7_feature_matrix.2.1 ["a", "b"] (by decide)).1

/-- C10: the pending commit list of the linear walk is empty iff the PR tip
is a member of the first-parent ancestor set (including the base tip
itself); and for a tip that is such an ancestor, rebase reconstruction
performs zero cherry-picks and adds no rebased commits. -/
theorem c10_pending_empty_iff_ancestor (repo : Repo) (master : List Nat)
    (masterId tipId : Nat) (tc : CommitV) (h : Obj → Nat) (pick : PickFn) :
    ((linWalk repo master masterId tipId tc).pending = [] ↔ tipId ∈ master) ∧
    (tipId ∈ master →
      replayAux h pick repo masterId
          ((linWalk repo master masterId tipId tc).pending.reverse) =
        .ok ⟨repo, masterId, [], 0⟩) := by
  by_cases hm : tipId ∈ master
  · constructor
    · simp [linWalk, linWalkAux, hm]
    · intro _
      simp [linWalk, linWalkAux, hm, replayAux]
  · constructor
    · simp [linWalk, linWalkAux, hm]
    · intro hc
      exact absurd hc hm

/-- Witness for `c10_pending_empty_iff_ancestor`: a tip that is an ancestor
of base has an empty pending set and a skipped replay. -/
theorem c10_pending_empty_iff_ancestor_witness :
    ((linWalk ⟨[], []⟩ [5] 5 5 ⟨[], 0, 0, ""⟩).pending = [] ↔ (5 : Nat) ∈ [5]) ∧
    ((5 : Nat) ∈ [5] →
      replayAux (fun _ => 0) (fun _ _ _ => none) ⟨[], []⟩ 5
          ((linWalk ⟨[], []⟩ [5] 5 5 ⟨[], 0, 0, ""⟩).pending.reverse) =
        .ok ⟨⟨[], []⟩, 5, [], 0⟩) :=
  c10_pending_empty_iff_ancestor ⟨[], []⟩ [5] 5 5 ⟨[], 0, 0, ""⟩
    (fun _ => 0) (fun _ _ _ => none)

/-- The id returned by a content-addressed write is the content hash of the
written object. -/
theorem odbWrite_snd (h : Obj → Nat) (odb : Odb) (o : Obj) :
    (odbWrite h odb o).2 = h o := by
  unfold odbWrite
  cases hc : odbRead odb (h o) <;> simp [hc]

/-- The pre-order copy walk never takes the `assert_eq!` mismatch branch
when the source store is hash consistent. -/
theorem copyWalk_no_mismatch (h : Obj → Nat) (src : Odb)
    (hcons : ConsistentOdb h src) :
    ∀ (fuel : Nat) (ws : List Entry) (dst : Odb) (i j : Nat),
      copyWalk h src fuel ws dst ≠ .error (.mismatch i j) := by
  intro fuel
  induction fuel with
  | zero =>
    intro ws dst i j
    simp [copyWalk]
  | succ n ih =>
    intro ws dst i j
    match ws with
    | [] => simp [copyWalk]
    | e :: rest =>
      rw [copyWalk]
      cases hr : odbRead src e.oid with
      | none => simp
      | some o =>
        have hh : (odbWrite h dst o).2 = e.oid := by
          rw [odbWrite_snd]
          exact hcons _ _ hr
        simp only [hh, if_pos rfl]
        cases o with
        | blob d => exact ih _ _ i j
        | tree es => exact ih _ _ i j
        | commitO c => exact ih _ _ i j

/-- C9: under hash-consistent stores, every object written during tree
provisioning (each walked entry and the root tree object itself) reproduces
its source id in the destination content-addressed store, so the
`assert_eq!` mismatch assertion of `copy_tree` never fails: no run of
`copy_tree` returns a mismatch, for any fuel, destination store, and root
tree. -/
theorem c9_copy_integrity (h : Obj → Nat) (src : Odb)
    (hcons : ConsistentOdb h src) :
    ∀ (fuel : Nat) (dst : Odb) (rootOid : Nat) (rootEntries : List Entry)
      (i j : Nat),
      copy_tree h fuel src dst rootOid rootEntries ≠
        .error (.mismatch i j) := by
  intro fuel dst rootOid rootEntries i j
  rw [copy_tree]
  cases hw : copyWalk h src fuel rootEntries dst with
  | error e =>
    cases e with
    | mismatch a b => exact absurd hw (copyWalk_no_mismatch h src hcons _ _ _ _ _)
    | readErr a => simp
    | findErr a => simp
    | fuel => simp
  | ok dst1 =>
    cases hr : odbRead src rootOid with
    | none => simp
    | some o =>
      have hh : (odbWrite h dst1 o).2 = rootOid := by
        rw [odbWrite_snd]
        exact hcons _ _ hr
      simp [hh]

/-- Witness for `c9_copy_integrity`: a concrete consistent store (one blob,
one tree) whose copy is mismatch-free. -/
theorem c9_copy_integrity_witness :
    ConsistentOdb
        (fun o => if o = .blob [7] then 1 else if o = .tree [⟨"f", 1⟩] then 2 else 0)
        [(1, .blob [7]), (2, .tree [⟨"f", 1⟩])] ∧
    copy_tree
        (fun o => if o = .blob [7] then 1 else if o = .tree [⟨"f", 1⟩] then 2 else 0)
        5 [(1, .blob [7]), (2, .tree [⟨"f", 1⟩])] [] 2 [⟨"f", 1⟩] ≠
      .error (.mismatch 1 2) := by
  have hcons : ConsistentOdb
      (fun o => if o = .blob [7] then 1 else if o = .tree [⟨"f", 1⟩] then 2 else 0)
      [(1, .blob [7]), (2, .tree [⟨"f", 1⟩])] := by
    intro id o hro
    simp only [odbRead] at hro
    by_cases h1 : (1 : Nat) = id
    · rw [if_pos h1] at hro
      cases hro
      simp [h1]
    · rw [if_neg h1] at hro
      by_cases h2 : (2 : Nat) = id
      · rw [if_pos h2] at hro
        cases hro
        simp [h2]
      · rw [if_neg h2] at hro
        cases hro
  exact ⟨hcons, c9_copy_integrity _ _ hcons 5 [] 2 [⟨"f", 1⟩] 1 2⟩

/-- Reading an append hits the left list first. -/
theorem odbRead_append_some (a b : Odb) (id : Nat) (o : Obj)
    (hr : odbRead a id = some o) : odbRead (a ++ b) id = some o := by
  induction a with
  | nil => simp [odbRead] at hr
  | cons p rest ih =>
    obtain ⟨i, v⟩ := p
    rw [List.cons_append, odbRead]
    rw [odbRead] at hr
    by_cases hi : i = id
    · rw [if_pos hi] at hr ⊢
      exact hr
    · rw [if_neg hi] at hr ⊢
      exact ih hr

/-- Reading an append falls through to the right list when the left list has
no binding. -/
theorem odbRead_append_none (a b : Odb) (id : Nat)
    (hr : odbRead a id = none) : odbRead (a ++ b) id = odbRead b id := by
  induction a with
  | nil => simp [odbRead]
  | cons p rest ih =>
    obtain ⟨i, v⟩ := p
    rw [List.cons_append, odbRead]
    rw [odbRead] at hr
    by_cases hi : i = id
    · rw [if_pos hi] at hr
      cases hr
    · rw [if_neg hi] at hr ⊢
      exact ih hr

/-- Writing an already-present object leaves the store unchanged. -/
theorem odbWrite_fst_of_some (h : Obj → Nat) (dst : Odb) (o w : Obj)
    (hc : odbRead dst (h o) = some w) : (odbWrite h dst o).1 = dst := by
  unfold odbWrite
  rw [hc]

/-- Writing a new object appends its binding. -/
theorem odbWrite_fst_of_none (h : Obj → Nat) (dst : Odb) (o : Obj)
    (hc : odbRead dst (h o) = none) :
    (odbWrite h dst o).1 = dst ++ [(h o, o)] := by
  unfold odbWrite
  rw [hc]

/-- A content-addressed write leaves reads at other ids unchanged. -/
theorem odbWrite_read_other (h : Obj → Nat) (dst : Odb) (o : Obj) (id : Nat)
    (hne : id ≠ h o) : odbRead (odbWrite h dst o).1 id = odbRead dst id := by
  cases hc : odbRead dst (h o) with
  | some w => rw [odbWrite_fst_of_some h dst o w hc]
  | none =>
    rw [odbWrite_fst_of_none h dst o hc]
    cases hd : odbRead dst id with
    | some v => exact odbRead_append_some _ _ _ _ hd
    | none =>
      rw [odbRead_append_none _ _ _ hd]
      simp only [odbRead]
      rw [if_neg (fun hh => hne hh.symm)]

/-- A write is monotone: existing bindings keep their value. -/
theorem odbWrite_read_mono (h : Obj → Nat) (dst : Odb) (o : Obj) (id : Nat)
    (v : Obj) (hr : odbRead dst id = some v) :
    odbRead (odbWrite h dst o).1 id = some v := by
  cases hc : odbRead dst (h o) with
  | some w =>
    rw [odbWrite_fst_of_some h dst o w hc]
    exact hr
  | none =>
    rw [odbWrite_fst_of_none h dst o hc]
    exact odbRead_append_some _ _ _ _ hr

/-- The domain of a write grows only by the written id. -/
theorem odbWrite_dom (h : Obj → Nat) (dst : Odb) (o : Obj) (id : Nat)
    (hr : odbRead (odbWrite h dst o).1 id ≠ none) :
    odbRead dst id ≠ none ∨ id = h o := by
  by_cases hi : id = h o
  · exact Or.inr hi
  · rw [odbWrite_read_other h dst o id hi] at hr
    exact Or.inl hr

/-- Every binding of `dst` agrees with `src`: reads that succeed in `dst`
return exactly the object `src` stores under the same id. -/
def AgreeSrc (src dst : Odb) : Prop :=
  ∀ id o, odbRead dst id = some o → odbRead src id = some o

/-- Writing an object that `src` stores under its own hash preserves
agreement. -/
theorem AgreeSrc_write (h : Obj → Nat) (src dst : Odb) (o : Obj)
    (hag : AgreeSrc src dst) (hsrc : odbRead src (h o) = some o) :
    AgreeSrc src (odbWrite h dst o).1 := by
  intro id v hr
  cases hc : odbRead dst (h o) with
  | some w =>
    rw [odbWrite_fst_of_some h dst o w hc] at hr
    exact hag _ _ hr
  | none =>
    rw [odbWrite_fst_of_none h dst o hc] at hr
    by_cases hi : id = h o
    · subst hi
      rw [odbRead_append_none _ _ _ hc] at hr
      simp only [odbRead, if_pos rfl] at hr
      cases hr
      exact hsrc
    · cases hd : odbRead dst id with
      | some w2 =>
        rw [odbRead_append_some dst [(h o, o)] id w2 hd] at hr
        cases hr
        exact hag _ _ hd
      | none =>
        rw [odbRead_append_none _ _ _ hd] at hr
        simp only [odbRead] at hr
        rw [if_neg (fun hh => hi hh.symm)] at hr
        exact Option.noConfusion hr

/-- Reading the written id after a write of an object `src` stores under its
own hash, starting from an agreeing store, returns that object. -/
theorem odbWrite_read_key (h : Obj → Nat) (src dst : Odb) (o : Obj)
    (hag : AgreeSrc src dst) (hsrc : odbRead src (h o) = some o) :
    odbRead (odbWrite h dst o).1 (h o) = some o := by
  cases hc : odbRead dst (h o) with
  | some w =>
    rw [odbWrite_fst_of_some h dst o w hc]
    have h2 := hag _ _ hc
    rw [hsrc] at h2
    cases h2
    exact hc
  | none =>
    rw [odbWrite_fst_of_none h dst o hc]
    rw [odbRead_append_none _ _ _ hc]
    simp [odbRead]

/-- Transitivity of object-store reachability. -/
theorem ReachE_trans (odb : Odb) (x y z : Nat)
    (h1 : ReachE odb x y) (h2 : ReachE odb y z) : ReachE odb x z := by
  induction h2 with
  | refl => exact h1
  | step _ ht he ih => exact .step ih ht he

/-- First-step decomposition of reachability: a reachable id is the start
itself, or is reachable from an entry of the tree stored at the start. -/
theorem ReachE_head (odb : Odb) (x id : Nat) (hr : ReachE odb x id) :
    id = x ∨ ∃ es e1, odbRead odb x = some (.tree es) ∧ e1 ∈ es ∧
      ReachE odb e1.oid id := by
  induction hr with
  | refl => exact Or.inl rfl
  | step hre ht he ih =>
    rcases ih with heq | ⟨es, e1, hx, he1, hr1⟩
    · subst heq
      exact Or.inr ⟨_, _, ht, he, .refl _⟩
    · exact Or.inr ⟨es, e1, hx, he1, .step hr1 ht he⟩

/-- A successful copy walk only extends the destination store. -/
theorem copyWalk_mono (h : Obj → Nat) (src : Odb) :
    ∀ (fuel : Nat) (ws : List Entry) (dst dst' : Odb),
      copyWalk h src fuel ws dst = .ok dst' →
      ∀ id v, odbRead dst id = some v → odbRead dst' id = some v := by
  intro fuel
  induction fuel with
  | zero =>
    intro ws dst dst' hok
    simp [copyWalk] at hok
  | succ n ih =>
    intro ws dst dst' hok id v hr
    match ws with
    | [] =>
      rw [copyWalk] at hok
      cases hok
      exact hr
    | e :: rest =>
      rw [copyWalk] at hok
      split at hok
      · cases hok
      · rename_i o heq
        split at hok
        · split at hok <;>
            exact ih _ _ _ hok id v (odbWrite_read_mono h dst _ id v hr)
        · cases hok

/-- Invariant of a successful copy walk: agreement with the source store is
preserved, and afterwards every id reachable from a worklist entry reads the
same in the destination as in the source. -/
theorem copyWalk_agree (h : Obj → Nat) (src : Odb) :
    ∀ (fuel : Nat) (ws : List Entry) (dst dst' : Odb),
      AgreeSrc src dst →
      copyWalk h src fuel ws dst = .ok dst' →
      AgreeSrc src dst' ∧
        ∀ e ∈ ws, ∀ id, ReachE src e.oid id →
          odbRead dst' id = odbRead src id := by
  intro fuel
  induction fuel with
  | zero =>
    intro ws dst dst' _ hok
    simp [copyWalk] at hok
  | succ n ih =>
    intro ws dst dst' hag hok
    match ws with
    | [] =>
      rw [copyWalk] at hok
      cases hok
      exact ⟨hag, fun e he => absurd he (List.not_mem_nil e)⟩
    | e :: rest =>
      rw [copyWalk] at hok
      split at hok
      · cases hok
      · rename_i o heq
        split at hok
        · rename_i hid
          have hkey : h o = e.oid := by
            rw [odbWrite_snd] at hid
            exact hid
          have hsrc2 : odbRead src (h o) = some o := by
            rw [hkey]
            exact heq
          have hag1 : AgreeSrc src (odbWrite h dst o).1 :=
            AgreeSrc_write h src dst o hag hsrc2
          have hk1 : odbRead (odbWrite h dst o).1 (h o) = some o :=
            odbWrite_read_key h src dst o hag hsrc2
          cases o with
          | blob d =>
            obtain ⟨hag2, hcomp⟩ := ih rest _ dst' hag1 hok
            refine ⟨hag2, ?_⟩
            intro e2 he2 id hre
            rcases List.mem_cons.mp he2 with he2 | he2
            · subst he2
              rcases ReachE_head src e2.oid id hre with hid2 | ⟨es, e1, hx, _, _⟩
              · subst hid2
                have hmono := copyWalk_mono h src n rest _ dst' hok _ _ hk1
                rw [hkey] at hmono
                rw [hmono, heq]
              · rw [heq] at hx
                cases hx
            · exact hcomp e2 he2 id hre
          | tree subEntries =>
            obtain ⟨hag2, hcomp⟩ := ih (subEntries ++ rest) _ dst' hag1 hok
            refine ⟨hag2, ?_⟩
            intro e2 he2 id hre
            rcases List.mem_cons.mp he2 with he2 | he2
            · subst he2
              rcases ReachE_head src e2.oid id hre with hid2 | ⟨es, e1, hx, he1, hr1⟩
              · subst hid2
                have hmono := copyWalk_mono h src n _ _ dst' hok _ _ hk1
                rw [hkey] at hmono
                rw [hmono, heq]
              · rw [heq] at hx
                injection hx with hx2
                injection hx2 with hx3
                subst hx3
                exact hcomp e1 (List.mem_append_left rest he1) id hr1
            · exact hcomp e2 (List.mem_append_right subEntries he2) id hre
          | commitO c =>
            obtain ⟨hag2, hcomp⟩ := ih rest _ dst' hag1 hok
            refine ⟨hag2, ?_⟩
            intro e2 he2 id hre
            rcases List.mem_cons.mp he2 with he2 | he2
            · subst he2
              rcases ReachE_head src e2.oid id hre with hid2 | ⟨es, e1, hx, _, _⟩
              · subst hid2
                have hmono := copyWalk_mono h src n rest _ dst' hok _ _ hk1
                rw [hkey] at hmono
                rw [hmono, heq]
              · rw [heq] at hx
                cases hx
            · exact hcomp e2 he2 id hre
        · cases hok

/-- A successful copy walk adds only ids reachable from the worklist. -/
theorem copyWalk_dom (h : Obj → Nat) (src : Odb) :
    ∀ (fuel : Nat) (ws : List Entry) (dst dst' : Odb),
      copyWalk h src fuel ws dst = .ok dst' →
      ∀ id, odbRead dst' id ≠ none →
        odbRead dst id ≠ none ∨ ∃ e ∈ ws, ReachE src e.oid id := by
  intro fuel
  induction fuel with
  | zero =>
    intro ws dst dst' hok
    simp [copyWalk] at hok
  | succ n ih =>
    intro ws dst dst' hok id hdom
    match ws with
    | [] =>
      rw [copyWalk] at hok
      cases hok
      exact Or.inl hdom
    | e :: rest =>
      rw [copyWalk] at hok
      split at hok
      · cases hok
      · rename_i o heq
        split at hok
        · rename_i hid
          have hkey : h o = e.oid := by
            rw [odbWrite_snd] at hid
            exact hid
          cases o with
          | blob d =>
            rcases ih rest _ dst' hok id hdom with hd1 | ⟨e2, he2, hre⟩
            · rcases odbWrite_dom h dst _ id hd1 with hd0 | hd0
              · exact Or.inl hd0
              · rw [hkey] at hd0
                subst hd0
                exact Or.inr ⟨e, List.mem_cons_self e rest, .refl _⟩
            · exact Or.inr ⟨e2, List.mem_cons_of_mem e he2, hre⟩
          | tree subEntries =>
            rcases ih (subEntries ++ rest) _ dst' hok id hdom with hd1 | ⟨e2, he2, hre⟩
            · rcases odbWrite_dom h dst _ id hd1 with hd0 | hd0
              · exact Or.inl hd0
              · rw [hkey] at hd0
                subst hd0
                exact Or.inr ⟨e, List.mem_cons_self e rest, .refl _⟩
            · rcases List.mem_append.mp he2 with he2 | he2
              · refine Or.inr ⟨e, List.mem_cons_self e rest, ?_⟩
                exact ReachE_trans src _ _ _ (.step (.refl e.oid) heq he2) hre
              · exact Or.inr ⟨e2, List.mem_cons_of_mem e he2, hre⟩
          | commitO c =>
            rcases ih rest _ dst' hok id hdom with hd1 | ⟨e2, he2, hre⟩
            · rcases odbWrite_dom h dst _ id hd1 with hd0 | hd0
              · exact Or.inl hd0
              · rw [hkey] at hd0
                subst hd0
                exact Or.inr ⟨e, List.mem_cons_self e rest, .refl _⟩
            · exact Or.inr ⟨e2, List.mem_cons_of_mem e he2, hre⟩
        · cases hok

/-- Checkout congruence: two stores that agree on every id reachable from a
list of entries flatten those entries identically. -/
theorem flattenEntries_agree (src odb1 : Odb) :
    ∀ (fuel : Nat) (pfx : String) (es : List Entry),
      (∀ e ∈ es, ∀ id, ReachE src e.oid id →
        odbRead odb1 id = odbRead src id) →
      flattenEntries odb1 fuel pfx es = flattenEntries src fuel pfx es := by
  intro fuel
  induction fuel with
  | zero =>
    intro pfx es _
    rfl
  | succ n ih =>
    intro pfx es hagree
    match es with
    | [] => rfl
    | e :: rest =>
      have hread : odbRead odb1 e.oid = odbRead src e.oid :=
        hagree e (List.mem_cons_self e rest) e.oid (.refl _)
      have hrest : ∀ e2 ∈ rest, ∀ id, ReachE src e2.oid id →
          odbRead odb1 id = odbRead src id :=
        fun e2 he2 => hagree e2 (List.mem_cons_of_mem e he2)
      rw [flattenEntries, flattenEntries, hread]
      cases hsrc : odbRead src e.oid with
      | none => rfl
      | some o =>
        cases o with
        | blob d => simp only [ih pfx rest hrest]
        | commitO c => rfl
        | tree subEntries =>
          have hsub : ∀ e2 ∈ subEntries, ∀ id, ReachE src e2.oid id →
              odbRead odb1 id = odbRead src id := by
            intro e2 he2 id hre
            refine hagree e (List.mem_cons_self e rest) id ?_
            exact ReachE_trans src _ _ _ (.step (.refl e.oid) hsrc he2) hre
          simp only [ih (pfx ++ e.name ++ "/") subEntries hsub,
            ih pfx rest hrest]

/-- Decomposition of a successful `copy_tree`: the walk succeeded, the root
object was read from the source, hashes to the root id, and was written
last. -/
theorem copy_tree_ok (h : Obj → Nat) (fuel : Nat) (src dst0 : Odb)
    (rootOid : Nat) (rootEntries : List Entry) (dst : Odb)
    (hok : copy_tree h fuel src dst0 rootOid rootEntries = .ok dst) :
    ∃ dst1 o, copyWalk h src fuel rootEntries dst0 = .ok dst1 ∧
      odbRead src rootOid = some o ∧ h o = rootOid ∧
      dst = (odbWrite h dst1 o).1 := by
  unfold copy_tree at hok
  split at hok
  · cases hok
  · rename_i dst1 hwalk
    split at hok
    · cases hok
    · rename_i o hroot
      split at hok
      · rename_i hid
        cases hok
        rw [odbWrite_snd] at hid
        exact ⟨dst1, o, hwalk, hroot, hid, rfl⟩
      · cases hok

/-- Full specification of a successful `temp_repo` provisioning: the
destination store agrees with the source, contains only ids reachable from
the commit's root tree, and the checked-out working directory equals the
flattening of the commit's tree read from the *source* store; HEAD is unborn
and the notes are empty. -/
theorem temp_repo_spec (h : Obj → Nat) (fuel : Nat) (src : Repo) (cid : Nat)
    (c : CommitV) (rootEntries : List Entry) (r : TempRepoState)
    (hc : findCommit src cid = some c)
    (ht : odbRead src.odb c.tree = some (.tree rootEntries))
    (hok : temp_repo h fuel src cid = .ok r) :
    AgreeSrc src.odb r.odb ∧
    (∀ id, odbRead r.odb id ≠ none → ReachE src.odb c.tree id) ∧
    flattenEntries src.odb fuel "" rootEntries = .ok r.workdir ∧
    r.head = none ∧ r.notes = [] := by
  unfold temp_repo at hok
  split at hok
  · cases hok
  · rename_i c2 hc2
    have hcc : c = c2 := by
      have := hc.symm.trans hc2
      injection this
    subst hcc
    split at hok
    · rename_i es0 heqt
      have hes0 : Obj.tree rootEntries = Obj.tree es0 := by
        have := ht.symm.trans heqt
        injection this
      have hes0' : rootEntries = es0 := by injection hes0
      subst hes0'
      split at hok
      · cases hok
      · rename_i dst hcopy
        obtain ⟨dst1, o, hwalk, hroot, hkey, hdst⟩ :=
          copy_tree_ok h fuel src.odb [] c.tree rootEntries dst hcopy
        have ho : Obj.tree rootEntries = o := by
          have := ht.symm.trans hroot
          injection this
        subst ho
        have hag0 : AgreeSrc src.odb ([] : Odb) := by
          intro id o2 hr
          simp [odbRead] at hr
        obtain ⟨hag1, hcomp⟩ :=
          copyWalk_agree h src.odb fuel rootEntries [] dst1 hag0 hwalk
        have hsrckey : odbRead src.odb (h (.tree rootEntries)) =
            some (.tree rootEntries) := by
          rw [hkey]
          exact ht
        have hagd : AgreeSrc src.odb dst := by
          rw [hdst]
          exact AgreeSrc_write h src.odb dst1 _ hag1 hsrckey
        have hagw : AgreeSrc src.odb (odbWrite h dst (.tree rootEntries)).1 :=
          AgreeSrc_write h src.odb dst _ hagd hsrckey
        have hkw : odbRead (odbWrite h dst (.tree rootEntries)).1
            (h (.tree rootEntries)) = some (.tree rootEntries) :=
          odbWrite_read_key h src.odb dst _ hagd hsrckey
        have hdom : ∀ id,
            odbRead (odbWrite h dst (.tree rootEntries)).1 id ≠ none →
            ReachE src.odb c.tree id := by
          intro id hi
          rcases odbWrite_dom h dst _ id hi with hi2 | hi2
          · rw [hdst] at hi2
            rcases odbWrite_dom h dst1 _ id hi2 with hi3 | hi3
            · rcases copyWalk_dom h src.odb fuel rootEntries [] dst1 hwalk id
                  hi3 with hi4 | ⟨e, he, hre⟩
              · simp [odbRead] at hi4
              · exact ReachE_trans src.odb _ _ _ (.step (.refl c.tree) ht he) hre
            · rw [hi3, hkey]
              exact .refl _
          · rw [hi2, hkey]
            exact .refl _
        have hfinal : ∀ id, ReachE src.odb c.tree id →
            odbRead (odbWrite h dst (.tree rootEntries)).1 id =
              odbRead src.odb id := by
          intro id hre
          by_cases hid : id = c.tree
          · subst hid
            rw [ht]
            rw [hkey] at hkw
            exact hkw
          · rcases ReachE_head src.odb c.tree id hre with h1 | ⟨es2, e1, hx, he1, hr1⟩
            · exact absurd h1 hid
            · have hes2 : Obj.tree rootEntries = Obj.tree es2 := by
                have := ht.symm.trans hx
                injection this
              have hes2' : rootEntries = es2 := by injection hes2
              subst hes2'
              have h3 := hcomp e1 he1 id hr1
              have hne : id ≠ h (.tree rootEntries) := by
                rw [hkey]
                exact hid
              rw [odbWrite_read_other h dst _ id hne]
              rw [hdst]
              rw [odbWrite_read_other h dst1 _ id hne]
              exact h3
        split at hok
        · rename_i es hesr
          rw [odbWrite_snd] at hesr
          have hes : Obj.tree rootEntries = Obj.tree es := by
            have := hkw.symm.trans hesr
            injection this
          have hes' : rootEntries = es := by injection hes
          subst hes'
          split at hok
          · cases hok
          · rename_i files hflat
            cases hok
            refine ⟨hagw, hdom, ?_, rfl, rfl⟩
            have hagflat : ∀ e ∈ rootEntries, ∀ id, ReachE src.odb e.oid id →
                odbRead (odbWrite h dst (.tree rootEntries)).1 id =
                  odbRead src.odb id := by
              intro e he id hre
              exact hfinal id
                (ReachE_trans src.odb _ _ _ (.step (.refl c.tree) ht he) hre)
            rw [← flattenEntries_agree src.odb _ fuel "" rootEntries hagflat]
            exact hflat
        · cases hok
    · cases hok

/-- C8: isolated provisioning is a round-trip: for every commit id that
resolves in the source repository and is provisioned successfully, the
working directory of the temporary repository equals the flattening of that
commit's tree as read from the source store (same files, byte-for-byte
contents, nothing else), and every object copied into the destination store
is reachable from that tree. -/
theorem c8_provision_roundtrip (h : Obj → Nat) (fuel : Nat) (src : Repo)
    (cid : Nat) (c : CommitV) (rootEntries : List Entry) (r : TempRepoState)
    (hc : findCommit src cid = some c)
    (ht : odbRead src.odb c.tree = some (.tree rootEntries))
    (hok : temp_repo h fuel src cid = .ok r) :
    flattenEntries src.odb fuel "" rootEntries = .ok r.workdir ∧
    ∀ id, odbRead r.odb id ≠ none → ReachE src.odb c.tree id := by
  obtain ⟨_, hdom, hflat, _, _⟩ :=
    temp_repo_spec h fuel src cid c rootEntries r hc ht hok
  exact ⟨hflat, hdom⟩

/-- Witness for `c8_provision_roundtrip` on the one-commit fixture. -/
theorem c8_provision_roundtrip_witness :
    flattenEntries fixSrc.odb 5 "" [⟨"f", 1⟩] = .ok fixOut.workdir ∧
    ReachE fixSrc.odb 2 1 := by
  have happ := c8_provision_roundtrip fixH 5 fixSrc 3 fixC [⟨"f", 1⟩] fixOut
    rfl rfl rfl
  refine ⟨happ.1, ?_⟩
  have h2 := happ.2 1 (by decide)
  exact h2

/-- C2: every repository produced by `temp_repo` contains only blob and tree
objects (never a commit object, in a source without submodule gitlinks), its
HEAD is unborn, and consequently the HEAD lookup at the start of
`RustCheck::execute` fails: `execute` returns the "getting HEAD" error
before performing any concrete job. -/
theorem c2_temp_repo_unborn_head (h : Obj → Nat) (fuel : Nat) (src : Repo)
    (cid : Nat) (c : CommitV) (rootEntries : List Entry) (r : TempRepoState)
    (oracle : OracleFn) (check : RustCheck) (manifest : CargoToml)
    (hngl : NoGitlink src.odb)
    (hc : findCommit src cid = some c)
    (ht : odbRead src.odb c.tree = some (.tree rootEntries))
    (hok : temp_repo h fuel src cid = .ok r) :
    r.head = none ∧
    (∀ id o, odbRead r.odb id = some o → o.isCommit = false) ∧
    (execute h fuel oracle check manifest r).result = .error "getting HEAD" ∧
    (execute h fuel oracle check manifest r).performed = [] := by
  obtain ⟨hag, hdom, _, hhead, _⟩ :=
    temp_repo_spec h fuel src cid c rootEntries r hc ht hok
  refine ⟨hhead, ?_, ?_, ?_⟩
  · intro id o hro
    have hsrc := hag id o hro
    have hre : ReachE src.odb c.tree id := by
      refine hdom id ?_
      rw [hro]
      exact fun hh => Option.noConfusion hh
    cases hre with
    | refl =>
      have : Obj.tree rootEntries = o := by
        have := ht.symm.trans hsrc
        injection this
      subst this
      rfl
    | step hr2 ht2 he2 =>
      cases o with
      | blob d => rfl
      | tree es => rfl
      | commitO c2 => exact absurd hsrc (hngl _ _ ht2 _ he2 c2)
  · unfold execute
    rw [hhead]
  · unfold execute
    rw [hhead]

/-- Witness for `c2_temp_repo_unborn_head` on the one-commit fixture. -/
theorem c2_temp_repo_unborn_head_witness :
    fixOut.head = none ∧ Obj.isCommit (.blob [7]) = false ∧
    (execute fixH 5 (fun _ => true) fixCheck fixManifest fixOut).result =
      .error "getting HEAD" ∧
    (execute fixH 5 (fun _ => true) fixCheck fixManifest fixOut).performed =
      [] := by
  have hngl : NoGitlink fixSrc.odb := by
    intro id es hro e he c2
    simp only [fixSrc, odbRead] at hro
    by_cases h1 : (1 : Nat) = id
    · rw [if_pos h1] at hro
      cases hro
    · rw [if_neg h1] at hro
      by_cases h2 : (2 : Nat) = id
      · rw [if_pos h2] at hro
        have hes : es = [⟨"f", 1⟩] := by
          have := hro
          injection this with h3
          injection h3 with h4
          exact h4.symm
        subst hes
        have he2 : e = ⟨"f", 1⟩ := List.mem_singleton.mp he
        subst he2
        show odbRead fixSrc.odb 1 ≠ some (Obj.commitO c2)
        intro hcc
        have hv : odbRead fixSrc.odb (1 : Nat) = some (Obj.blob [7]) := rfl
        rw [hv] at hcc
        cases hcc
      · rw [if_neg h2] at hro
        by_cases h3 : (3 : Nat) = id
        · rw [if_pos h3] at hro
          cases hro
        · rw [if_neg h3] at hro
          cases hro
  have happ := c2_temp_repo_unborn_head fixH 5 fixSrc 3 fixC [⟨"f", 1⟩]
    fixOut (fun _ => true) fixCheck fixManifest hngl rfl rfl rfl
  exact ⟨happ.1, happ.2.1 1 (.blob [7]) rfl, happ.2.2.1, happ.2.2.2⟩

/-- Unfolding equation of the linear walk. -/
theorem linWalkAux_succ (repo : Repo) (master : List Nat) (masterId : Nat)
    (n id : Nat) (c : CommitV) :
    linWalkAux repo master masterId (n + 1) id c =
      if id ∈ master then ⟨[], false, decide (id ≠ masterId)⟩
      else ⟨(id, c) :: (linWalkRest repo master masterId n c).pending,
            decide (c.parents.length > 1) ||
              (linWalkRest repo master masterId n c).hasMerges,
            (linWalkRest repo master masterId n c).needsRebase⟩ := rfl

/-- A merge anywhere on the walked chain sets the `has_merges` flag. -/
theorem linWalk_flag (repo : Repo) (master : List Nat) (masterId : Nat) :
    ∀ (fuel id : Nat) (c : CommitV) (x : Nat) (cx : CommitV),
      (x, cx) ∈ (linWalkAux repo master masterId fuel id c).pending →
      1 < cx.parents.length →
      (linWalkAux repo master masterId fuel id c).hasMerges = true := by
  intro fuel
  induction fuel with
  | zero =>
    intro id c x cx hmem _
    simp [linWalkAux] at hmem
  | succ n ih =>
    intro id c x cx hmem hlen
    rw [linWalkAux_succ] at hmem ⊢
    by_cases hm : id ∈ master
    · rw [if_pos hm] at hmem
      simp at hmem
    · rw [if_neg hm] at hmem ⊢
      simp only [List.mem_cons] at hmem
      rcases hmem with hmem | hmem
      · have hcx : cx = c := (Prod.mk.injEq _ _ _ _ ▸ hmem).2
        subst hcx
        simp only [decide_eq_true_eq]
        rw [Bool.or_eq_true, decide_eq_true_eq]
        exact Or.inl hlen
      · unfold linWalkRest at hmem ⊢
        cases hp : c.parents with
        | nil =>
          rw [hp] at hmem
          simp at hmem
        | cons p ps =>
          rw [hp] at hmem
          dsimp only at hmem ⊢
          cases hf : findCommit repo p with
          | none =>
            rw [hf] at hmem
            simp at hmem
          | some cp =>
            rw [hf] at hmem
            dsimp only at hmem ⊢
            have hres := ih p cp x cx hmem hlen
            simp only [hres, Bool.or_true]

/-- Chain-step: if a walked commit has exactly one parent and that parent is
outside the ancestor set and resolves, the parent is also on the walked
chain (given well-formedness and sufficient fuel). -/
theorem linWalk_step (repo : Repo) (master : List Nat) (masterId : Nat)
    (hwf : WFRepo repo) :
    ∀ (fuel id : Nat) (c : CommitV), findCommit repo id = some c →
      id + 1 ≤ fuel →
      ∀ (x : Nat) (cx : CommitV) (p : Nat) (cp : CommitV),
        (x, cx) ∈ (linWalkAux repo master masterId fuel id c).pending →
        cx.parents = [p] → p ∉ master → findCommit repo p = some cp →
        (p, cp) ∈ (linWalkAux repo master masterId fuel id c).pending := by
  intro fuel
  induction fuel with
  | zero =>
    intro id c _ hle
    exact absurd hle (Nat.not_succ_le_zero id)
  | succ n ih =>
    intro id c hfc hle x cx p cp hmem hpar hpm hfp
    rw [linWalkAux_succ] at hmem ⊢
    by_cases hm : id ∈ master
    · rw [if_pos hm] at hmem
      simp at hmem
    · rw [if_neg hm] at hmem ⊢
      dsimp only at hmem ⊢
      rw [List.mem_cons] at hmem ⊢
      rcases hmem with hmem | hmem
      · rw [Prod.mk.injEq] at hmem
        obtain ⟨hx, hcx⟩ := hmem
        subst hx
        subst hcx
        refine Or.inr ?_
        unfold linWalkRest
        rw [hpar]
        dsimp only
        rw [hfp]
        dsimp only
        have hp_lt : p < x :=
          hwf x cx hfc p (by rw [hpar]; exact List.mem_singleton_self p)
        cases n with
        | zero => exact absurd hp_lt (by omega)
        | succ m =>
          rw [linWalkAux_succ, if_neg hpm]
          dsimp only
          exact List.mem_cons_self _ _
      · refine Or.inr ?_
        unfold linWalkRest at hmem ⊢
        cases hcp : c.parents with
        | nil =>
          rw [hcp] at hmem
          simp at hmem
        | cons q qs =>
          rw [hcp] at hmem
          dsimp only at hmem ⊢
          cases hq : findCommit repo q with
          | none =>
            rw [hq] at hmem
            simp at hmem
          | some cq =>
            rw [hq] at hmem
            have hq_lt : q < id :=
              hwf id c hfc q (by rw [hcp]; exact List.mem_cons_self q qs)
            exact ih q cq hq (by omega) x cx p cp hmem hpar hpm hfp

/-- A successful read is a binding of the list. -/
theorem odbRead_mem (l : Odb) (id : Nat) (o : Obj)
    (hr : odbRead l id = some o) : (id, o) ∈ l := by
  induction l with
  | nil => cases hr
  | cons p rest ih =>
    obtain ⟨i, v⟩ := p
    rw [odbRead] at hr
    by_cases hi : i = id
    · rw [if_pos hi] at hr
      subst hi
      injection hr with hv
      subst hv
      exact List.mem_cons_self _ _
    · rw [if_neg hi] at hr
      exact List.mem_cons_of_mem _ (ih hr)

/-- Every commit reachable from a tip outside the ancestor set is either on
the linear first-parent chain or the merge flag is set. -/
theorem reachPR_mem_or_flag (repo : Repo) (master : List Nat)
    (masterId : Nat) (hwf : WFRepo repo) (tipId : Nat) (tc : CommitV)
    (hfind : findCommit repo tipId = some tc) (htip : tipId ∉ master) :
    ∀ m, ReachPR repo master tipId m →
      ∀ cm, findCommit repo m = some cm →
        (m, cm) ∈ (linWalk repo master masterId tipId tc).pending ∨
          (linWalk repo master masterId tipId tc).hasMerges = true := by
  intro m hre
  induction hre with
  | refl =>
    intro cm hcm
    have htcm : tc = cm := by
      have := hfind.symm.trans hcm
      injection this
    subst htcm
    left
    unfold linWalk
    rw [linWalkAux_succ, if_neg htip]
    dsimp only
    exact List.mem_cons_self _ _
  | step hr2 hcx hp hpm ih =>
    rename_i x p c
    intro cp hcp
    rcases ih _ hcx with hmem | hflag
    · rcases Nat.lt_or_ge 1 c.parents.length with hlen | hlen
      · right
        exact linWalk_flag repo master masterId _ _ _ _ _ hmem hlen
      · have hpar : c.parents = [p] := by
          cases hcc : c.parents with
          | nil =>
            rw [hcc] at hp
            cases hp
          | cons q qs =>
            rw [hcc] at hp hlen
            have hqs : qs = [] := by
              cases qs with
              | nil => rfl
              | cons r rs => simp at hlen
            subst hqs
            have hpq := List.mem_singleton.mp hp
            rw [hpq]
        left
        exact linWalk_step repo master masterId hwf (tipId + 1) tipId tc
          hfind (le_refl _) x c p cp hmem hpar hpm hcp
    · right
      exact hflag

/-- C5 (amended): a commit with more than one parent encountered on the
first-parent walk from the PR tip sets the merge flag; and, provided the PR
tip is not itself a member of the AncestorSet, every commit reachable from
the tip outside the AncestorSet with more than one parent forces the merge
flag, so that without the allow-merges flag the run aborts with the policy
error before any verification task is scheduled.  (The original claim, with
no condition on the tip, is refuted by
`c5_reachable_merge_not_flagged_cex`.) -/
theorem c5_merge_policy_amended (env : ExecEnv) (repo : Repo)
    (masterId tipId m : Nat) (mc tc cm : CommitV) (checks : List RustCheck)
    (hwf : WFRepo repo)
    (hmc : findCommit repo masterId = some mc)
    (htc : findCommit repo tipId = some tc)
    (htip : tipId ∉ fpAncestors repo masterId mc)
    (hre : ReachPR repo (fpAncestors repo masterId mc) tipId m)
    (hcm : findCommit repo m = some cm)
    (hmerge : 1 < cm.parents.length) :
    (linWalk repo (fpAncestors repo masterId mc) masterId tipId tc).hasMerges
        = true ∧
    real_main env repo masterId tipId false checks = .error .policyMerges ∧
    runScheduled (real_main env repo masterId tipId false checks) = [] := by
  have hflag : (linWalk repo (fpAncestors repo masterId mc) masterId tipId
      tc).hasMerges = true := by
    rcases reachPR_mem_or_flag repo (fpAncestors repo masterId mc) masterId
        hwf tipId tc htc htip m hre cm hcm with hmem | hflag
    · exact linWalk_flag repo _ masterId _ _ _ _ _ hmem hmerge
    · exact hflag
  have hrm : real_main env repo masterId tipId false checks =
      .error .policyMerges := by
    simp [real_main, hmc, htc, hflag]
  exact ⟨hflag, hrm, by rw [hrm]; rfl⟩

/-- Witness for `c5_merge_policy_amended`: a PR tip that is itself a merge,
not based on master; the flag is set and the run aborts with the policy
error, scheduling nothing. -/
theorem c5_merge_policy_amended_witness :
    (linWalk wRepo5 (fpAncestors wRepo5 10 ⟨[], 30, 10, ""⟩) 10 20
        ⟨[10, 5], 30, 20, ""⟩).hasMerges = true ∧
    real_main cexEnv wRepo5 10 20 false [fixCheck] = .error .policyMerges ∧
    runScheduled (real_main cexEnv wRepo5 10 20 false [fixCheck]) = [] := by
  have hwf : WFRepo wRepo5 := by
    intro id c hfc
    unfold findCommit at hfc
    cases hodb : odbRead wRepo5.odb id with
    | none =>
      rw [hodb] at hfc
      cases hfc
    | some o =>
      rw [hodb] at hfc
      have hmem := odbRead_mem _ _ _ hodb
      cases o with
      | blob d => cases hfc
      | tree es => cases hfc
      | commitO c2 =>
        have hc2 : c2 = c := by injection hfc
        subst hc2
        simp only [wRepo5, List.mem_cons, List.not_mem_nil, or_false,
          Prod.mk.injEq] at hmem
        rcases hmem with ⟨hid, hc⟩ | ⟨hid, hc⟩ | ⟨hid, hc⟩ | ⟨hid, hc⟩
        · subst hid
          cases hc
          intro p hp
          simp at hp
        · subst hid
          cases hc
          intro p hp
          simp at hp
        · subst hid
          cases hc
          intro p hp
          rcases List.mem_cons.mp hp with hp | hp
          · subst hp
            decide
          · rcases List.mem_singleton.mp hp with rfl
            decide
        · cases hc
  exact c5_merge_policy_amended cexEnv wRepo5 10 20 20 ⟨[], 30, 10, ""⟩
    ⟨[10, 5], 30, 20, ""⟩ ⟨[10, 5], 30, 20, ""⟩ [fixCheck] hwf rfl rfl
    (by decide) (.refl) rfl (by decide)

/-- C5 counterexample: in `cexRepo` the PR tip (20) is itself in the
AncestorSet, so the linear walk stops immediately; commit 5 is reachable
from the tip, outside the AncestorSet, and has two parents, yet the merge
flag stays false and the run does not abort: it schedules four verification
tasks although allow-merges was not given.  This refutes the claim as
stated (reachable merges flagged and policy abort) for tips inside the
AncestorSet. -/
theorem c5_reachable_merge_not_flagged_cex :
    ReachPR cexRepo (fpAncestors cexRepo 20 ⟨[10, 5], 30, 20, ""⟩) 20 5 ∧
    findCommit cexRepo 5 = some ⟨[2, 3], 30, 5, ""⟩ ∧
    1 < ([2, 3] : List Nat).length ∧
    (linWalk cexRepo (fpAncestors cexRepo 20 ⟨[10, 5], 30, 20, ""⟩) 20 20
        ⟨[10, 5], 30, 20, ""⟩).hasMerges = false ∧
    (runScheduled (real_main cexEnv cexRepo 20 20 false [fixCheck])).length
      = 4 := by
  refine ⟨?_, rfl, by decide, by decide, ?_⟩
  · refine ReachPR.step (.refl) (c := ⟨[10, 5], 30, 20, ""⟩) rfl ?_ ?_
    · decide
    · decide
  · rfl

/-- C3 (code bug): a pending commit whose cherry-pick is a no-op (the
replayed index tree, 30, equals the tree of the current head commit 10) is
STILL registered as a new rebased commit: `Repository::commit` always
creates a fresh commit object whose id (here 40) carries the previous head
as its parent, so the `new_head == current_head` skip test of
`real_main` can never fire, contradicting the specified behavior of
skipping no-op cherry-picks. -/
theorem c3_noop_cherrypick_still_added_bug :
    c3Pick 10 7 ⟨[], 30, 7, "fix"⟩ = some 30 ∧
    findCommit wRepo5 10 = some ⟨[], 30, 10, ""⟩ ∧
    replayAdded (replayAux c3H c3Pick wRepo5 10 [(7, ⟨[], 30, 7, "fix"⟩)]) =
      [40] :=
  ⟨rfl, rfl, rfl⟩

/-- C4 (code bug): the only-tip flag of a check is parsed but never read:
with `only_tip = true` the run still schedules the check for every commit
of the final commit set (here both commit 3, the tip, and commit 2). -/
theorem c4_only_tip_ignored_bug :
    c4Check.only_tip = true ∧
    runScheduled (real_main cexEnv c4Repo 1 3 false [c4Check]) =
      [(3, c4Check), (2, c4Check)] :=
  ⟨rfl, rfl⟩

/-- C1 (code bug): the cache layer never takes effect.  Commit 3 of
`fixSrcN` carries exactly the persisted marker of the single build job of
`fixCheck`, yet the run performs zero jobs and also skips zero jobs via
markers (execute fails at the unborn HEAD of the freshly provisioned
temporary repository, whose note store is empty anyway), the source
repository's markers are never modified, and the run fails.  A second run
of the same pure pipeline on the unchanged repository is the identical
computation, so no run ever skips work because of markers accumulated by a
previous run, contradicting the claimed cache idempotence mechanism. -/
theorem c1_cache_never_persisted_bug :
    runPerformed (real_main fixEnv fixSrcN 3 3 false [fixCheck]) = [] ∧
    runSkipped (real_main fixEnv fixSrcN 3 3 false [fixCheck]) = [] ∧
    runNotesAfter (real_main fixEnv fixSrcN 3 3 false [fixCheck]) =
      some [(3, "stable cargo build \x27--features=\x27")] ∧
    runFailed (real_main fixEnv fixSrcN 3 3 false [fixCheck]) = true :=
  ⟨rfl, rfl, rfl, rfl⟩

/-- C6 counterexample: within one (commit, check) task with jobs
`[build, test]`, the test concrete job is part of the expanded job set, the
build job runs and fails, and the test job never runs: `try_for_each`'s
error propagates through the `?` between job kinds, so ConcreteJob-level
isolation does not hold. -/
theorem c6_job_isolation_cex :
    (⟨"stable", .test, []⟩ : SC) ∈ expanded_jobs "stable" c6Check fixManifest ∧
    (execute fixH 5 c6Oracle c6Check fixManifest c6St).performed =
      [⟨"stable", .build, []⟩] ∧
    (execute fixH 5 c6Oracle c6Check fixManifest c6St).result =
      .error ("job failed: stable cargo build \x27--features=\x27") := by
  refine ⟨by decide, rfl, rfl⟩

/-- C6 (amended): failure isolation holds at task granularity, not at
ConcreteJob granularity: every (commit, check) task reports exactly one
outcome, the aggregate result is a success iff every task succeeded (so any
failure makes the run fail), and the printed per-task detail contains every
successful task's notes regardless of other tasks' failures.  (Within one
task, a failing ConcreteJob short-circuits that task's remaining jobs —
`c6_job_isolation_cex`.) -/
theorem c6_task_isolation_amended :
    (∀ (tasks : List ((Nat × RustCheck) × ExecOut)),
      ((collectResults tasks).2 = .ok () ↔
        ∀ t ∈ tasks, ∃ ns, t.2.result = .ok ns) ∧
      ∀ t ∈ tasks, ∀ ns, t.2.result = .ok ns →
        (t.1.1, ns) ∈ (collectResults tasks).1) ∧
    (∀ (env : ExecEnv) (repo : Repo) (ts : List (Nat × RustCheck))
        (outs : List ExecOut),
      runTasks env repo ts = .ok outs → outs.length = ts.length) := by
  constructor
  · intro tasks
    induction tasks with
    | nil =>
      constructor
      · constructor
        · intro _ t ht
          exact absurd ht (List.not_mem_nil t)
        · intro _
          rfl
      · intro t ht
        exact absurd ht (List.not_mem_nil t)
    | cons hd rest ih =>
      obtain ⟨⟨id, ck⟩, out⟩ := hd
      constructor
      · rw [collectResults]
        cases hres : out.result with
        | ok notes =>
          dsimp only
          constructor
          · intro hok t ht
            rcases List.mem_cons.mp ht with ht | ht
            · subst ht
              exact ⟨notes, hres⟩
            · exact (ih.1.mp hok) t ht
          · intro hall
            exact ih.1.mpr fun t ht => hall t (List.mem_cons_of_mem _ ht)
        | error e =>
          dsimp only
          constructor
          · intro hok
            exfalso
            cases hrest : (collectResults rest).2 with
            | ok u =>
              rw [hrest] at hok
              cases hok
            | error e2 =>
              rw [hrest] at hok
              cases hok
          · intro hall
            obtain ⟨ns, hns⟩ := hall ((id, ck), out) (List.mem_cons_self _ _)
            rw [hres] at hns
            cases hns
      · intro t ht ns hns
        rw [collectResults]
        rcases List.mem_cons.mp ht with ht | ht
        · subst ht
          rw [hns]
          dsimp only
          exact List.mem_cons_self _ _
        · cases hres : out.result with
          | ok notes =>
            dsimp only
            exact List.mem_cons_of_mem _ (ih.2 t ht ns hns)
          | error e =>
            dsimp only
            exact ih.2 t ht ns hns
  · intro env repo ts
    induction ts with
    | nil =>
      intro outs hok
      rw [runTasks] at hok
      cases hok
      rfl
    | cons hd rest ih =>
      obtain ⟨id, ck⟩ := hd
      intro outs hok
      rw [runTasks] at hok
      split at hok
      · cases hok
      · rename_i st hst
        cases hrest : runTasks env repo rest with
        | error e =>
          rw [hrest] at hok
          cases hok
        | ok l =>
          rw [hrest] at hok
          injection hok with houts
          subst houts
          simp [ih l hrest]

/-- Witness for `c6_task_isolation_amended` on a one-task list. -/
theorem c6_task_isolation_amended_witness :
    (collectResults [((3, fixCheck), ⟨[], [], [], .ok ["n"]⟩)]).2 = .ok () ∧
    (3, ["n"]) ∈ (collectResults [((3, fixCheck), ⟨[], [], [], .ok ["n"]⟩)]).1 := by
  have h := c6_task_isolation_amended
  refine ⟨(h.1 _).1.mpr ?_,
    (h.1 _).2 ((3, fixCheck), ⟨[], [], [], .ok ["n"]⟩)
      (List.mem_singleton.mpr rfl) ["n"] rfl⟩
  intro t ht
  rw [List.mem_singleton] at ht
  subst ht
  exact ⟨["n"], rfl⟩
